import Mathlib

set_option maxRecDepth 8000

/-
Shallow embedding of the dependency-resolution core of the repository
(`DependencyResolver` in main.py).  Strings are modelled as `List Char`;
the Python string primitives used by the source (`split`, `replace`,
`strip`, `startswith`, substring `in`) are embedded as structurally
recursive functions below, and `re.split(r',\s*(?![^(]*\))', ...)` /
`re.match(r'^\s*([a-zA-Z0-9+\-\.]+)', ...)` are embedded by the scanners
`splitTopCommasAux` / `extractName`.
-/

namespace DepResolver

/-- Whitespace, the ASCII range of the regex class and of Python strip. -/
def isSpace (c : Char) : Bool :=
  c = ' ' || c = '\t' || c = '\n' || c = '\r' || c = '\x0b' || c = '\x0c'

/-- The character class of a package name in the source regex. -/
def isNameChar (c : Char) : Bool :=
  c.isAlpha || c.isDigit || c = '+' || c = '-' || c = '.'

/-- Python substring containment, the str `in` operator. -/
def containsSub (pat : List Char) : List Char → Bool
  | [] => pat.isEmpty
  | c :: rest => pat.isPrefixOf (c :: rest) || containsSub pat rest

/-- Success of the negative lookahead in the comma-splitting regex of
`_parse_depends`: from this position, no closing parenthesis occurs
before the next opening parenthesis. -/
def noCloseBeforeOpen : List Char → Bool
  | [] => true
  | c :: rest => if c = '(' then true else if c = ')' then false else noCloseBeforeOpen rest

/-- Python str.split on a single-character separator (keeps empty parts;
yields one empty part on empty input). -/
def splitOnChar (sep : Char) : List Char → List (List Char)
  | [] => [[]]
  | c :: rest =>
    if c = sep then [] :: splitOnChar sep rest
    else
      match splitOnChar sep rest with
      | [] => [[]]
      | p :: ps => (c :: p) :: ps

/-- Python str.split on the two-character stanza delimiter, leftmost
non-overlapping occurrences first. -/
def splitNN : List Char → List (List Char)
  | [] => [[]]
  | [c] => [[c]]
  | c :: d :: rest =>
    if c = '\n' ∧ d = '\n' then [] :: splitNN rest
    else
      match splitNN (d :: rest) with
      | [] => [[]]
      | p :: ps => (c :: p) :: ps

/-- Scanner for `re.split(r',\s*(?![^(]*\))', s)`: a comma splits exactly
when the lookahead succeeds right after it, and a successful match also
consumes the following whitespace run (the `skipping` flag). -/
def splitTopCommasAux : Bool → List Char → List Char → List (List Char)
  | _, acc, [] => [acc.reverse]
  | skipping, acc, c :: rest =>
    if skipping && isSpace c then splitTopCommasAux true acc rest
    else if c == ',' && noCloseBeforeOpen rest then
      acc.reverse :: splitTopCommasAux true [] rest
    else splitTopCommasAux false (c :: acc) rest

/-- The comma-level split of a Depends expression. -/
def splitTopCommas (s : List Char) : List (List Char) :=
  splitTopCommasAux false [] s

/-- Worker for Python str.replace(pat, ""): a pending skip count walks
over the matched occurrence. -/
def removeAllAux (pat : List Char) : Nat → List Char → List Char
  | _, [] => []
  | Nat.succ k, _ :: rest => removeAllAux pat k rest
  | 0, c :: rest =>
    if pat.isPrefixOf (c :: rest) && !pat.isEmpty then
      removeAllAux pat (pat.length - 1) rest
    else c :: removeAllAux pat 0 rest

/-- Python str.replace(pat, ""): removes every (leftmost, non-overlapping)
occurrence of `pat`. -/
def removeAll (pat s : List Char) : List Char :=
  removeAllAux pat 0 s

/-- Python str.strip(). -/
def strip (s : List Char) : List Char :=
  ((s.dropWhile isSpace).reverse.dropWhile isSpace).reverse

/-- The name extracted from one alternative:
`re.match(r'^\s*([a-zA-Z0-9+\-\.]+)', alt.strip())` and its group(1). -/
def extractName (alt : List Char) : Option (List Char) :=
  let name := (strip alt).takeWhile isNameChar
  if name.isEmpty then none else some name

/-- Append a name if it is not already present. -/
def stepName {α : Type} [DecidableEq α] (deps : List α) (n : α) : List α :=
  if n ∈ deps then deps else deps ++ [n]

/-- The body of the inner loop of `_parse_depends`. -/
def parseDependsStep (deps : List (List Char)) (alt : List Char) : List (List Char) :=
  match extractName alt with
  | none => deps
  | some n => stepName deps n

/-- `DependencyResolver._parse_depends`. -/
def parse_depends (depends_content : List Char) : List (List Char) :=
  if depends_content.isEmpty then []
  else
    (splitTopCommas depends_content).foldl
      (fun deps part => (splitOnChar '|' part).foldl parseDependsStep deps) []

/-- The f-string `Package: {package_name}` searched for in a stanza. -/
def packageKey (package_name : List Char) : List Char :=
  ("Package: ").toList ++ package_name

def versionKey : List Char := ("Version:").toList

def dependsKey : List Char := ("Depends:").toList

/-- The per-stanza test of `_find_package_info`: the stanza text contains
`Package: {name}`, and its first `Version:` line, with the key removed and
stripped, equals the requested version or contains it as a substring. -/
def blockMatches (package_name package_version block : List Char) : Bool :=
  containsSub (packageKey package_name) block &&
    match (splitOnChar '\n' block).filter (fun l => versionKey.isPrefixOf l) with
    | [] => false
    | vline :: _ =>
      let actual := strip (removeAll versionKey vline)
      actual == package_version || containsSub package_version actual

/-- `DependencyResolver._find_package_info`. -/
def find_package_info (packages_content package_name package_version : List Char) :
    Option (List Char) :=
  (splitNN packages_content).find? (blockMatches package_name package_version)

/-- The `depends_content` computed by `_extract_dependencies` from the
first `Depends:` line, when one exists. -/
def dependsContent? (package_info : List Char) : Option (List Char) :=
  ((splitOnChar '\n' package_info).find? (fun l => dependsKey.isPrefixOf l)).map
    (fun line => strip (removeAll dependsKey line))

/-- `DependencyResolver._extract_dependencies`. -/
def extract_dependencies (package_info : List Char) : List (List Char) :=
  match dependsContent? package_info with
  | none => []
  | some c => parse_depends c

inductive ResolveError : Type
  | packageNotFound (package_name package_version : List Char)
deriving DecidableEq

/-- `DependencyResolver.get_package_dependencies`, with the already
downloaded index text as input.  The `isEmpty` test mirrors the Python
truthiness test `if not package_info` on an Optional string. -/
def get_package_dependencies (packages_content package_name package_version : List Char) :
    Except ResolveError (List (List Char)) :=
  match find_package_info packages_content package_name package_version with
  | none => Except.error (ResolveError.packageNotFound package_name package_version)
  | some info =>
    if info.isEmpty then
      Except.error (ResolveError.packageNotFound package_name package_version)
    else Except.ok (extract_dependencies info)

/-- The raw name stream of a Depends expression: every extracted name, in
scan order, duplicates kept. -/
def rawNames (depends_content : List Char) : List (List Char) :=
  if depends_content.isEmpty then []
  else (((splitTopCommas depends_content).map (splitOnChar '|')).flatten).filterMap extractName

/-- First-seen-order deduplication against an explicit seen set. -/
def dedupFirstAux {α : Type} [DecidableEq α] (seen : List α) : List α → List α
  | [] => []
  | n :: l => if n ∈ seen then dedupFirstAux seen l else n :: dedupFirstAux (n :: seen) l

/-- Keep the first occurrence of each element, in first-seen order. -/
def dedupFirst {α : Type} [DecidableEq α] (l : List α) : List α :=
  dedupFirstAux [] l

/-- Rejoin stanza parts with the double-newline delimiter. -/
def joinNN : List (List Char) → List Char
  | [] => []
  | [p] => p
  | p :: q :: ps => p ++ '\n' :: '\n' :: joinNN (q :: ps)

/-- Fixture: an index with two curl stanzas, versions 7.68.0-1 and
7.68.0-1ubuntu2. -/
def curlBlockA : List Char := ("Package: curl\nVersion: 7.68.0-1\nDepends: libc6").toList

def curlBlockB : List Char :=
  ("Package: curl\nVersion: 7.68.0-1ubuntu2\nDepends: libc6").toList

def curlContent : List Char :=
  ("Package: curl\nVersion: 7.68.0-1\nDepends: libc6\n\nPackage: curl\nVersion: 7.68.0-1ubuntu2\nDepends: libc6").toList

def curlName : List Char := ("curl").toList

def curlVersionReq : List Char := ("7.68.0").toList

/-- Fixture: a stanza whose Depends line contains the key twice. -/
def dcStanza : List Char := ("Depends: aDepends:b").toList

/-- The empty pattern is a substring of every string. -/
theorem containsSub_nil (s : List Char) : containsSub [] s = true := by
  cases s <;> simp [containsSub, List.isPrefixOf]

/-- The empty stanza never matches: the Package key cannot occur in it. -/
theorem blockMatches_nil (package_name package_version : List Char) :
    blockMatches package_name package_version [] = false := rfl

/-- A matching stanza is nonempty. -/
theorem blockMatches_isEmpty {package_name package_version info : List Char}
    (h : blockMatches package_name package_version info = true) : info.isEmpty = false := by
  cases info with
  | nil => rw [blockMatches_nil] at h; exact absurd h (by simp)
  | cons c rest => rfl

/-- A successful find? returns the first element satisfying the predicate. -/
theorem find_first {α : Type} (p : α → Bool) (l : List α) (b : α) (h : l.find? p = some b) :
    p b = true ∧ ∃ pre post, l = pre ++ b :: post ∧ ∀ x ∈ pre, p x = false := by
  obtain ⟨hb, pre, post, hl, hpre⟩ := List.find?_eq_some.mp h
  exact ⟨hb, pre, post, hl, fun x hx => by simpa using hpre x hx⟩

/-- The inner loop only looks at the extracted names. -/
theorem foldl_parseDependsStep (alts : List (List Char)) (acc : List (List Char)) :
    alts.foldl parseDependsStep acc = (alts.filterMap extractName).foldl stepName acc := by
  induction alts generalizing acc with
  | nil => rfl
  | cons a alts ih =>
    cases h : extractName a <;>
      simp [List.foldl_cons, List.filterMap_cons, h, parseDependsStep, ih]

/-- The two nested loops of the parser walk the flattened alternatives. -/
theorem foldl_nested (parts : List (List Char)) (acc : List (List Char)) :
    parts.foldl (fun deps part => (splitOnChar '|' part).foldl parseDependsStep deps) acc
      = ((parts.map (splitOnChar '|')).flatten).foldl parseDependsStep acc := by
  induction parts generalizing acc with
  | nil => rfl
  | cons p parts ih =>
    simp [List.foldl_cons, List.map_cons, List.flatten_cons, List.foldl_append, ih]

/-- dedupFirstAux only consults the seen set through membership. -/
theorem dedupFirstAux_congr {α : Type} [DecidableEq α] (l : List α) :
    ∀ s1 s2, (∀ x, x ∈ s1 ↔ x ∈ s2) → dedupFirstAux s1 l = dedupFirstAux s2 l := by
  induction l with
  | nil => intro s1 s2 _; rfl
  | cons n l ih =>
    intro s1 s2 h
    by_cases hn : n ∈ s1
    · have hn2 : n ∈ s2 := (h n).mp hn
      simp only [dedupFirstAux, if_pos hn, if_pos hn2]
      exact ih s1 s2 h
    · have hn2 : n ∉ s2 := fun c => hn ((h n).mpr c)
      simp only [dedupFirstAux, if_neg hn, if_neg hn2]
      rw [ih (n :: s1) (n :: s2) (by intro x; simp [h x])]

/-- Folding the insert-if-absent step appends the first-seen
deduplication of the incoming names. -/
theorem foldl_stepName_eq {α : Type} [DecidableEq α] (names : List α) :
    ∀ acc, names.foldl stepName acc = acc ++ dedupFirstAux acc names := by
  induction names with
  | nil => intro acc; simp [dedupFirstAux]
  | cons n names ih =>
    intro acc
    by_cases hn : n ∈ acc
    · simp [List.foldl_cons, stepName, hn, dedupFirstAux, ih]
    · rw [List.foldl_cons]
      simp only [stepName, if_neg hn]
      rw [ih (acc ++ [n])]
      simp only [dedupFirstAux, if_neg hn]
      rw [dedupFirstAux_congr names (acc ++ [n]) (n :: acc) (by intro x; simp; tauto)]
      simp [List.append_assoc]

/-- First-seen deduplication avoids the seen set and yields no duplicates. -/
theorem dedupFirstAux_spec {α : Type} [DecidableEq α] (l : List α) :
    ∀ seen, (∀ x ∈ dedupFirstAux seen l, x ∉ seen) ∧ (dedupFirstAux seen l).Nodup := by
  induction l with
  | nil => intro seen; simp [dedupFirstAux]
  | cons n l ih =>
    intro seen
    by_cases hn : n ∈ seen
    · simp only [dedupFirstAux, if_pos hn]
      exact ih seen
    · simp only [dedupFirstAux, if_neg hn]
      obtain ⟨h1, h2⟩ := ih (n :: seen)
      constructor
      · intro x hx
        rcases List.mem_cons.mp hx with rfl | hx
        · exact hn
        · intro hxs
          exact h1 x hx (List.mem_cons_of_mem _ hxs)
      · refine List.nodup_cons.mpr ⟨?_, h2⟩
        intro hmem
        exact h1 n hmem (List.mem_cons_self _ _)

/-- The parser computes exactly the first-seen deduplication of the raw
name stream. -/
theorem parse_depends_eq_dedupFirst (depends_content : List Char) :
    parse_depends depends_content = dedupFirst (rawNames depends_content) := by
  unfold parse_depends rawNames dedupFirst
  cases hs : depends_content.isEmpty
  · simp only [hs, Bool.false_eq_true, if_false]
    rw [foldl_nested, foldl_parseDependsStep, foldl_stepName_eq]
    rfl
  · simp [hs, dedupFirstAux]

/-- The stanza splitter always yields at least one part. -/
theorem splitNN_ne_nil (s : List Char) : splitNN s ≠ [] := by
  match s with
  | [] => simp [splitNN]
  | [c] => simp [splitNN]
  | c :: d :: rest =>
    by_cases h : c = '\n' ∧ d = '\n'
    · simp [splitNN, h]
    · simp only [splitNN, if_neg h]
      cases hs : splitNN (d :: rest) <;> simp

/-- The first part of a split of a nonempty string is empty or starts with
the first character. -/
theorem splitNN_head (d : Char) (rest p : List Char) (ps : List (List Char))
    (h : splitNN (d :: rest) = p :: ps) : p = [] ∨ ∃ p2, p = d :: p2 := by
  match rest with
  | [] =>
    simp only [splitNN, List.cons.injEq] at h
    exact Or.inr ⟨[], h.1.symm⟩
  | e :: rest2 =>
    by_cases hde : d = '\n' ∧ e = '\n'
    · simp only [splitNN, if_pos hde, List.cons.injEq] at h
      exact Or.inl h.1.symm
    · cases hs : splitNN (e :: rest2) with
      | nil =>
        simp only [splitNN, if_neg hde, hs, List.cons.injEq] at h
        exact Or.inl h.1.symm
      | cons q qs =>
        simp only [splitNN, if_neg hde, hs, List.cons.injEq] at h
        exact Or.inr ⟨q, h.1.symm⟩

/-- Rejoining the split parts with the delimiter restores the input. -/
theorem joinNN_splitNN (s : List Char) : joinNN (splitNN s) = s := by
  induction s using splitNN.induct with
  | case1 => rfl
  | case2 c => rfl
  | case3 c d rest h ih =>
    obtain ⟨rfl, rfl⟩ := h
    cases hs : splitNN rest with
    | nil => exact absurd hs (splitNN_ne_nil rest)
    | cons q qs =>
      rw [hs] at ih
      simp only [splitNN, if_pos (And.intro rfl rfl), hs, joinNN]
      simp [ih]
  | case4 c d rest h hnil ih => exact absurd hnil (splitNN_ne_nil (d :: rest))
  | case5 c d rest h p ps hs ih =>
    rw [hs] at ih
    simp only [splitNN, if_neg h, hs]
    cases ps with
    | nil =>
      simp only [joinNN] at ih ⊢
      rw [ih]
    | cons q qs =>
      simp only [joinNN] at ih ⊢
      rw [List.cons_append, ih]

/-- No part produced by the stanza splitter contains the delimiter. -/
theorem splitNN_no_delim (s : List Char) :
    ∀ p ∈ splitNN s, containsSub ('\n' :: '\n' :: []) p = false := by
  induction s using splitNN.induct with
  | case1 =>
    intro p hp
    simp only [splitNN, List.mem_singleton] at hp
    subst hp
    rfl
  | case2 c =>
    intro p hp
    simp only [splitNN, List.mem_singleton] at hp
    subst hp
    simp [containsSub, List.isPrefixOf]
  | case3 c d rest h ih =>
    obtain ⟨rfl, rfl⟩ := h
    intro p hp
    simp only [splitNN, if_pos (And.intro rfl rfl)] at hp
    rcases List.mem_cons.mp hp with rfl | hp
    · rfl
    · exact ih p hp
  | case4 c d rest h hnil ih => exact absurd hnil (splitNN_ne_nil (d :: rest))
  | case5 c d rest h p0 ps hs ih =>
    rw [hs] at ih
    intro p hp
    simp only [splitNN, if_neg h, hs] at hp
    rcases List.mem_cons.mp hp with rfl | hp
    · have hno : containsSub ('\n' :: '\n' :: []) p0 = false :=
        ih p0 (List.mem_cons_self _ _)
      have hpre : List.isPrefixOf ('\n' :: '\n' :: []) (c :: p0) = false := by
        rw [Bool.eq_false_iff]
        intro htrue
        obtain ⟨t, ht⟩ := List.isPrefixOf_iff_prefix.mp htrue
        simp only [List.cons_append, List.nil_append] at ht
        rcases splitNN_head d rest p0 ps hs with rfl | ⟨p2, rfl⟩
        · simp at ht
        · simp only [List.cons.injEq] at ht
          exact h (And.intro ht.1.symm ht.2.1.symm)
      simp [containsSub, hpre, hno]
    · exact ih p (List.mem_cons_of_mem _ hp)

/-- A pending skip of the length of a leading block walks over it. -/
theorem removeAllAux_skip (pat : List Char) (l rest : List Char) :
    removeAllAux pat l.length (l ++ rest) = removeAllAux pat 0 rest := by
  induction l with
  | nil => rfl
  | cons c l ih => simpa [removeAllAux] using ih

/-- Python replace leaves a string without any occurrence unchanged. -/
theorem removeAll_no_occurrence (pat s : List Char) (h : containsSub pat s = false) :
    removeAll pat s = s := by
  unfold removeAll
  induction s with
  | nil => rfl
  | cons c rest ih =>
    rw [containsSub] at h
    have h1 : pat.isPrefixOf (c :: rest) = false := by
      cases hp : pat.isPrefixOf (c :: rest) <;> simp [hp] at h ⊢
    have h2 : containsSub pat rest = false := by
      cases hp : containsSub pat rest <;> simp [hp] at h ⊢
    simp only [removeAllAux, h1, Bool.false_and, Bool.false_eq_true, if_false]
    rw [ih h2]

/-- Python replace removes a leading occurrence and, when the pattern does
not reoccur, leaves the remainder untouched. -/
theorem removeAll_key (pat rest : List Char) (hp : pat ≠ [])
    (h : containsSub pat rest = false) : removeAll pat (pat ++ rest) = rest := by
  match pat with
  | d :: dtail =>
    have hpre : List.isPrefixOf (d :: dtail) ((d :: dtail) ++ rest) = true :=
      List.isPrefixOf_iff_prefix.mpr ⟨rest, rfl⟩
    unfold removeAll
    have hcons : (d :: dtail) ++ rest = d :: (dtail ++ rest) := rfl
    rw [hcons]
    rw [removeAllAux]
    simp only [← hcons, hpre, List.isEmpty_cons, Bool.not_false, Bool.and_true, if_true]
    have hlen : (d :: dtail).length - 1 = dtail.length := by simp
    rw [hlen, removeAllAux_skip]
    exact removeAll_no_occurrence _ _ h

/-- Claim C1: the dependency expression parser, applied to
"libc6 (>= 2.14), libssl1.1 | libssl3", returns exactly the list
["libc6", "libssl1.1", "libssl3"]: every alternative of every comma
group is kept, with version constraints stripped. -/
theorem spec_c1 :
    parse_depends (("libc6 (>= 2.14), libssl1.1 | libssl3").toList) =
      [("libc6").toList, ("libssl1.1").toList, ("libssl3").toList] := by decide

/-- Claim C2: the parser splits on commas except commas inside a
parenthesized constraint; on "foo (>= 1.0), bar (= 2.0, 3.0)" the comma
embedded in the second constraint does not split the group and the
result is exactly ["foo", "bar"]. -/
theorem spec_c2 :
    splitTopCommas (("foo (>= 1.0), bar (= 2.0, 3.0)").toList) =
      [("foo (>= 1.0)").toList, ("bar (= 2.0, 3.0)").toList] ∧
    parse_depends (("foo (>= 1.0), bar (= 2.0, 3.0)").toList) =
      [("foo").toList, ("bar").toList] := by decide

/-- Claim C3: for every input Depends string the parser's output is the
first-seen-order deduplication of the stream of extracted names, and in
particular it has no duplicates: a name found twice keeps only its first
position. -/
theorem spec_c3 (depends_content : List Char) :
    parse_depends depends_content = dedupFirst (rawNames depends_content) ∧
    (parse_depends depends_content).Nodup := by
  refine ⟨parse_depends_eq_dedupFirst depends_content, ?_⟩
  rw [parse_depends_eq_dedupFirst depends_content]
  exact (dedupFirstAux_spec (rawNames depends_content) []).2

/-- Claim C4: the stanza matcher returns the first stanza, in sequence
order, whose text contains "Package: {name}" and whose first Version
line's trimmed value equals or contains the requested version; for the
two curl stanzas with versions 7.68.0-1 and 7.68.0-1ubuntu2, a request
for "7.68.0" returns the first stanza even though the second one also
matches. -/
theorem spec_c4 :
    (∀ content name version b, find_package_info content name version = some b →
      blockMatches name version b = true ∧
      ∃ pre post, splitNN content = pre ++ b :: post ∧
        ∀ x ∈ pre, blockMatches name version x = false) ∧
    find_package_info curlContent curlName curlVersionReq = some curlBlockA ∧
    blockMatches curlName curlVersionReq curlBlockB = true := by
  refine ⟨?_, by decide, by decide⟩
  intro content name version b h
  exact find_first (blockMatches name version) (splitNN content) b h

/-- Witness for C4 at the two-stanza curl index. -/
theorem spec_c4_witness :
    blockMatches curlName curlVersionReq curlBlockA = true ∧
    ∃ pre post, splitNN curlContent = pre ++ curlBlockA :: post ∧
      ∀ x ∈ pre, blockMatches curlName curlVersionReq x = false :=
  spec_c4.1 curlContent curlName curlVersionReq curlBlockA (by decide)

/-- Claim C5: the resolver reports the not-found error, naming the
requested package and version, exactly when no stanza of the index
matches the requested name and version. -/
theorem spec_c5 (packages_content package_name package_version : List Char) :
    get_package_dependencies packages_content package_name package_version =
        Except.error (ResolveError.packageNotFound package_name package_version) ↔
      ∀ b ∈ splitNN packages_content, blockMatches package_name package_version b = false := by
  unfold get_package_dependencies find_package_info
  cases h : (splitNN packages_content).find? (blockMatches package_name package_version) with
  | none =>
    simp only [h]
    constructor
    · intro _ b hb
      have hall := List.find?_eq_none.mp h
      simpa using hall b hb
    · intro _
      trivial
  | some info =>
    have hmatch : blockMatches package_name package_version info = true := List.find?_some h
    have hmem : info ∈ splitNN packages_content := List.mem_of_find?_eq_some h
    have hne : info.isEmpty = false := blockMatches_isEmpty hmatch
    simp only [h, hne, Bool.false_eq_true, if_false]
    constructor
    · intro hcontra
      exact absurd hcontra (by simp)
    · intro hall
      rw [hall info hmem] at hmatch
      exact absurd hmatch (by simp)

/-- Witness for C5: the empty index never matches, and the resolver
reports the not-found error there. -/
theorem spec_c5_witness :
    get_package_dependencies [] (("curl").toList) (("1.0").toList) =
      Except.error (ResolveError.packageNotFound (("curl").toList) (("1.0").toList)) :=
  (spec_c5 [] (("curl").toList) (("1.0").toList)).mpr (by decide)

/-- Counterexample to C6: on empty input the splitter does not yield an
empty sequence; it yields the one-element sequence containing the empty
stanza. -/
theorem spec_c6_counterexample :
    ¬ (splitNN (("").toList) = ([] : List (List Char))) := by decide

/-- Claim C6 (amended): the control-block splitter splits index text on
the double-newline delimiter (rejoining the parts with the delimiter
restores the input and no part contains the delimiter), and on empty
input it yields the one-element sequence containing the empty stanza. -/
theorem spec_c6 :
    (∀ s, joinNN (splitNN s) = s ∧
      ∀ p ∈ splitNN s, containsSub ('\n' :: '\n' :: []) p = false) ∧
    splitNN (("").toList) = [[]] := by
  refine ⟨fun s => ⟨joinNN_splitNN s, splitNN_no_delim s⟩, by decide⟩

/-- Witness for C6 on a concrete two-stanza text. -/
theorem spec_c6_witness :
    joinNN (splitNN (("a\n\nb").toList)) = ("a\n\nb").toList ∧
    containsSub ('\n' :: '\n' :: []) (("a").toList) = false :=
  ⟨(spec_c6.1 (("a\n\nb").toList)).1,
    (spec_c6.1 (("a\n\nb").toList)).2 (("a").toList) (by decide)⟩

/-- Counterexample to C7: on a Depends line in which the key occurs
twice, the extractor does not return the substring after the prefix
(trimmed, that is "aDepends:b"); it removes every occurrence of the key
and returns "ab". -/
theorem spec_c7_counterexample :
    dependsContent? dcStanza = some (("ab").toList) ∧
    strip (dcStanza.drop dependsKey.length) = ("aDepends:b").toList ∧
    ("ab").toList ≠ ("aDepends:b").toList := by decide

/-- Claim C7 (amended): the extractor scans the stanza's lines for the
first line starting with "Depends:" and returns that line with every
occurrence of "Depends:" removed, trimmed; when the key does not occur
again after the prefix this is exactly the substring after the prefix,
trimmed. -/
theorem spec_c7 (package_info line : List Char)
    (h : (splitOnChar '\n' package_info).find? (fun l => dependsKey.isPrefixOf l) = some line) :
    dependsContent? package_info = some (strip (removeAll dependsKey line)) ∧
    (containsSub dependsKey (line.drop dependsKey.length) = false →
      dependsContent? package_info = some (strip (line.drop dependsKey.length))) := by
  have h1 : dependsContent? package_info = some (strip (removeAll dependsKey line)) := by
    unfold dependsContent?
    rw [h]
    rfl
  refine ⟨h1, fun hno => ?_⟩
  have hkey : dependsKey.isPrefixOf line = true := List.find?_some h
  obtain ⟨rest, hrest⟩ : ∃ rest, line = dependsKey ++ rest := by
    obtain ⟨t, ht⟩ := List.isPrefixOf_iff_prefix.mp hkey
    exact ⟨t, ht.symm⟩
  subst hrest
  rw [List.drop_left] at hno ⊢
  rw [h1, removeAll_key dependsKey rest (by decide) hno]

/-- Witness for C7 on a stanza whose Depends line holds the key once. -/
theorem spec_c7_witness :
    dependsContent? (("Depends: libc6").toList) =
      some (strip ((("Depends: libc6").toList).drop dependsKey.length)) :=
  (spec_c7 (("Depends: libc6").toList) (("Depends: libc6").toList) (by decide)).2 (by decide)

/-- Claim C8: when the matched stanza has no line starting with
"Depends:", the resolver returns an empty dependency list rather than an
error; likewise the parser applied to the empty string returns the empty
list. -/
theorem spec_c8 :
    (∀ packages_content package_name package_version info,
      find_package_info packages_content package_name package_version = some info →
      (∀ l ∈ splitOnChar '\n' info, dependsKey.isPrefixOf l = false) →
      get_package_dependencies packages_content package_name package_version =
        Except.ok []) ∧
    parse_depends [] = [] := by
  refine ⟨?_, rfl⟩
  intro packages_content package_name package_version info hfind hnod
  have hmatch : blockMatches package_name package_version info = true := List.find?_some hfind
  have hne : info.isEmpty = false := blockMatches_isEmpty hmatch
  have hdc : dependsContent? info = none := by
    unfold dependsContent?
    rw [List.find?_eq_none.mpr (fun l hl => by simp [hnod l hl])]
    rfl
  unfold get_package_dependencies
  rw [hfind]
  simp [hne, extract_dependencies, hdc]

/-- Witness for C8 on a one-stanza index without a Depends line. -/
theorem spec_c8_witness :
    get_package_dependencies (("Package: curl\nVersion: 1.0").toList)
      (("curl").toList) (("1.0").toList) = Except.ok [] :=
  spec_c8.1 (("Package: curl\nVersion: 1.0").toList) (("curl").toList) (("1.0").toList)
    (("Package: curl\nVersion: 1.0").toList) (by decide) (by decide)

/-- Claim C9: a stanza without any line starting with "Version:" never
matches, whatever name and version are requested, so the matcher skips
it and moves on without error. -/
theorem spec_c9 (package_name package_version block : List Char)
    (h : ∀ l ∈ splitOnChar '\n' block, versionKey.isPrefixOf l = false) :
    blockMatches package_name package_version block = false := by
  unfold blockMatches
  have hfil : (splitOnChar '\n' block).filter (fun l => versionKey.isPrefixOf l) = [] :=
    List.filter_eq_nil_iff.mpr (fun a ha => by simp [h a ha])
  rw [hfil]
  simp

/-- Witness for C9 on a stanza with Package and Depends lines only. -/
theorem spec_c9_witness :
    blockMatches (("curl").toList) (("1.0").toList)
      (("Package: curl\nDepends: libc6").toList) = false :=
  spec_c9 (("curl").toList) (("1.0").toList)
    (("Package: curl\nDepends: libc6").toList) (by decide)

/-- Claim C10: when the requested version is the empty string, a stanza
matches exactly when it contains "Package: {name}" and has at least one
Version line, regardless of that line's value, because the empty string
is a substring of every trimmed version value. -/
theorem spec_c10 (package_name block : List Char) :
    blockMatches package_name [] block =
      (containsSub (packageKey package_name) block &&
        !((splitOnChar '\n' block).filter (fun l => versionKey.isPrefixOf l)).isEmpty) := by
  unfold blockMatches
  cases hf : (splitOnChar '\n' block).filter (fun l => versionKey.isPrefixOf l) with
  | nil => simp
  | cons v vs => simp [containsSub_nil]

end DepResolver
